import Mathlib

/-!
Shallow embedding of the quadtree image-compression core
(`src/imagepartition/quad_tree.py`, `leaf_node.py`, `internal_node.py`).

A numpy pixel buffer is modelled as a total function from (row, col,
channel) to a rational channel value, together with its shape; a numpy
view `raster[r0:r1, c0:c1, :]` is modelled as a `Region` holding the
bounds of the view into the shared buffer.  In-place mutation is
modelled by explicit state passing: every operation that writes pixels
returns the updated buffer.
-/

namespace ImageCompression

/-- The shared mutable backing store of the image: channel value at
(row, col, channel).  Values are rationals, covering both the integer
and floating point channel types the code accepts. -/
def Buf : Type := ℕ → ℕ → ℕ → ℚ

/-- A rectangular view `raster[r0:r1, c0:c1, :]` into the backing
buffer: rows `[r0, r1)`, columns `[c0, c1)`, all channels. -/
structure Region where
  r0 : ℕ
  r1 : ℕ
  c0 : ℕ
  c1 : ℕ
deriving DecidableEq, Repr

/-- `shape[0]` of the view: number of rows. -/
def Region.rows (R : Region) : ℕ := R.r1 - R.r0

/-- `shape[1]` of the view: number of columns. -/
def Region.cols (R : Region) : ℕ := R.c1 - R.c0

/-- `raster.size` of the view: total number of array elements,
rows * cols * channels. -/
def Region.size (R : Region) (C : ℕ) : ℕ := R.rows * R.cols * C

/-- The (row, col) pixel positions of the view, as a list. -/
def Region.cells (R : Region) : List (ℕ × ℕ) :=
  (List.range R.rows).flatMap fun i =>
    (List.range R.cols).map fun j => (R.r0 + i, R.c0 + j)

/-- Membership of a (row, col) pixel position in a region. -/
def Region.memP (R : Region) (p : ℕ × ℕ) : Prop :=
  R.r0 ≤ p.1 ∧ p.1 < R.r1 ∧ R.c0 ≤ p.2 ∧ p.2 < R.c1

instance (R : Region) (p : ℕ × ℕ) : Decidable (R.memP p) := by
  unfold Region.memP; infer_instance

/-- Two regions overlap on no (row, col) pixel position. -/
def RegionDisjoint (R S : Region) : Prop :=
  ∀ p : ℕ × ℕ, ¬(R.memP p ∧ S.memP p)

/-- Row index where `np.array_split(raster, 2, axis=0)` cuts: the first
section receives `⌈rows/2⌉` rows. -/
def Region.rowMid (R : Region) : ℕ := R.r0 + (R.rows + 1) / 2

/-- Column index where `np.array_split(first_split, 2, axis=1)` cuts:
the first section receives `⌈cols/2⌉` columns. -/
def Region.colMid (R : Region) : ℕ := R.c0 + (R.cols + 1) / 2

/-- `quadrants[0]`: top half of the rows, left half of the columns. -/
def Region.topLeft (R : Region) : Region := ⟨R.r0, R.rowMid, R.c0, R.colMid⟩

/-- `quadrants[1]`: top half of the rows, right half of the columns. -/
def Region.topRight (R : Region) : Region := ⟨R.r0, R.rowMid, R.colMid, R.c1⟩

/-- `quadrants[2]`: bottom half of the rows, left half of the columns. -/
def Region.bottomLeft (R : Region) : Region := ⟨R.rowMid, R.r1, R.c0, R.colMid⟩

/-- `quadrants[3]`: bottom half of the rows, right half of the columns. -/
def Region.bottomRight (R : Region) : Region := ⟨R.rowMid, R.r1, R.colMid, R.c1⟩

/-- Number of pixels `np.mean`/`np.std` average over along axes (0,1). -/
def Region.numPixels (R : Region) : ℕ := R.rows * R.cols

/-- Sum of channel `ch` over all pixels of the region. -/
def channelSum (buf : Buf) (R : Region) (ch : ℕ) : ℚ :=
  (R.cells.map fun p => buf p.1 p.2 ch).sum

/-- `np.mean(pixels, (0, 1))[ch]`: arithmetic mean of channel `ch`
over the pixels of the region. -/
def channelMean (buf : Buf) (R : Region) (ch : ℕ) : ℚ :=
  channelSum buf R ch / R.numPixels

/-- Population variance of channel `ch` over the pixels of the region;
`np.std(raster, (0, 1))[ch]` is its square root. -/
def channelVar (buf : Buf) (R : Region) (ch : ℕ) : ℚ :=
  (R.cells.map fun p => (buf p.1 p.2 ch - channelMean buf R ch) ^ 2).sum / R.numPixels

/-- `val > threshold` where `val = np.std(...)[ch] = √v` is the
per-channel standard deviation: over the rationals the strict
comparison `√v > t` is rendered by its exact algebraic
characterisation `t < 0 ∨ t² < v` (valid since `v ≥ 0`). -/
def stdGt (v t : ℚ) : Bool := decide (t < 0 ∨ t ^ 2 < v)

/-- `QuadTree.check_homogeneity(raster, threshold)`: iterate over the
per-channel standard deviations `np.std(raster, (0, 1))`; return False
as soon as one exceeds the threshold, True otherwise. -/
def check_homogeneity (C : ℕ) (buf : Buf) (R : Region) (t : ℚ) : Bool :=
  (List.range C).all fun ch => !stdGt (channelVar buf R ch) t

/-- A quadtree node: `LeafNode` stores its pixel view, `InternalNode`
stores four optional children (`None` = absent quadrant). -/
inductive TreeNode : Type where
  | leaf (pixels : Region) : TreeNode
  | internal (q1 q2 q3 q4 : Option TreeNode) : TreeNode
deriving Repr

/-- `LeafNode._average_pixels(pixels)`: the per-channel means `rgb` are
computed first, then the loop writes `rgb[0..2]` into channels 0, 1, 2
of every pixel of the region.  The pointwise function below is the net
effect of that loop (each iteration writes a pre-computed constant and
reads nothing). -/
def average_pixels (buf : Buf) (R : Region) : Buf := fun r c ch =>
  if R.memP (r, c) ∧ ch < 3 then channelMean buf R ch else buf r c ch

/-- `LeafNode.__init__(pixels)`: average the pixels unless the region
is a single row or a single column (`shape[0] != 1 and shape[1] != 1`). -/
def leafNodeInit (buf : Buf) (R : Region) : Buf :=
  if R.rows ≠ 1 ∧ R.cols ≠ 1 then average_pixels buf R else buf

/-- `QuadTree.construct(raster, max_depth, max_std_dev)`: returns the
optional root node together with the buffer after the in-place
averaging performed by the leaves it creates. -/
def construct (C : ℕ) (t : ℚ) (buf : Buf) (R : Region) (d : ℤ) :
    Option TreeNode × Buf :=
  if R.size C = 0 then (none, buf)
  else if d ≤ 0 ∨ check_homogeneity C buf R t = true then
    (some (.leaf R), leafNodeInit buf R)
  else
    let p1 := construct C t buf R.topLeft (d - 1)
    let p2 := construct C t p1.2 R.topRight (d - 1)
    let p3 := construct C t p2.2 R.bottomLeft (d - 1)
    let p4 := construct C t p3.2 R.bottomRight (d - 1)
    (some (.internal p1.1 p2.1 p3.1 p4.1), p4.2)
termination_by d.toNat
decreasing_by all_goals { rename_i h; simp only [not_or] at h; omega }

/-- `QuadTree.get_height_helper(cur_node)`: 0 for `None` and for a
leaf; otherwise 1 plus the maximum of the four children's heights
(absent children contribute 0). -/
def get_height_helper : Option TreeNode → ℕ
  | none => 0
  | some (.leaf _) => 0
  | some (.internal q1 q2 q3 q4) =>
      max (max (get_height_helper q1) (get_height_helper q2))
        (max (get_height_helper q3) (get_height_helper q4)) + 1

/-- `LeafNode.highlight_border(pixels)`: write 0 into channels 0, 1, 2
of every pixel on the outer boundary of the region (first row, first
column, last row, last column).  Pointwise net effect of the loop. -/
def highlight_border (buf : Buf) (R : Region) : Buf := fun r c ch =>
  if R.memP (r, c) ∧ ch < 3 ∧
      (r = R.r0 ∨ c = R.c0 ∨ r = R.r1 - 1 ∨ c = R.c1 - 1) then 0
  else buf r c ch

/-- `QuadTree.highlight_leaves_helper(cur_node)`: draw the border of a
leaf, otherwise recurse into the present quadrants in order 0, 1, 2, 3
(`None` children are skipped, modelled as the identity). -/
def highlight_leaves_helper : Option TreeNode → Buf → Buf
  | none, buf => buf
  | some (.leaf R), buf => highlight_border buf R
  | some (.internal q1 q2 q3 q4), buf =>
      highlight_leaves_helper q4 (highlight_leaves_helper q3
        (highlight_leaves_helper q2 (highlight_leaves_helper q1 buf)))

/-- A numpy array as the `QuadTree` constructor receives it: its shape
together with the backing store (the store is read through 3 indices
and is only meaningful when the shape is 3-dimensional). -/
structure NpArray where
  shape : List ℕ
  px : Buf

/-- The quadtree object: it owns the optional root node. -/
structure QuadTree where
  root : Option TreeNode

/-- `QuadTree.__init__(raster, max_depth, max_std_dev)`: a raster whose
shape is not 3-dimensional gets `root = None`; otherwise the root is
`QuadTree.construct` over the whole image.  Returns the tree together
with the buffer after construction's in-place averaging. -/
def quadTreeInit (a : NpArray) (d : ℤ) (t : ℚ) : QuadTree × Buf :=
  match a.shape with
  | [H, W, C] =>
      let p := construct C t a.px ⟨0, H, 0, W⟩ d
      (⟨p.1⟩, p.2)
  | _ => (⟨none⟩, a.px)

/-- `QuadTree.get_height(self)`. -/
def QuadTree.get_height (q : QuadTree) : ℕ := get_height_helper q.root

/-- `QuadTree.highlight_leaves(self)`: nothing happens when the root
is `None`, otherwise the helper runs on the root. -/
def QuadTree.highlight_leaves (q : QuadTree) (buf : Buf) : Buf :=
  match q.root with
  | none => buf
  | some r => highlight_leaves_helper (some r) buf

/-- Index adjustment performed by Python list subscripting: a negative
index has the list length added to it. -/
def pyAdjust (len : ℕ) (i : ℤ) : ℤ := if i < 0 then i + len else i

/-- Python list subscript read `l[i]`: the access succeeds exactly
when the adjusted index is in range, and raises IndexError (modelled
as `Except.error`) otherwise. -/
def pyListGet {α : Type} (l : List α) (i : ℤ) : Except Unit α :=
  if h : 0 ≤ pyAdjust l.length i ∧ pyAdjust l.length i < l.length then
    .ok (l.get ⟨(pyAdjust l.length i).toNat, by omega⟩)
  else .error ()

/-- Python list subscript write `l[i] = x`, same index rules as the
read; returns the updated list. -/
def pyListSet {α : Type} (l : List α) (i : ℤ) (x : α) : Except Unit (List α) :=
  if 0 ≤ pyAdjust l.length i ∧ pyAdjust l.length i < l.length then
    .ok (l.set (pyAdjust l.length i).toNat x)
  else .error ()

/-- `InternalNode.get_quadrant(self, index)`: subscript read on the
4-element `self.quadrants` list. -/
def get_quadrant (quadrants : List (Option TreeNode)) (index : ℤ) :
    Except Unit (Option TreeNode) :=
  pyListGet quadrants index

/-- `InternalNode.set_quadrant(self, index, node)`: subscript write on
the 4-element `self.quadrants` list. -/
def set_quadrant (quadrants : List (Option TreeNode)) (index : ℤ)
    (node : Option TreeNode) : Except Unit (List (Option TreeNode)) :=
  pyListSet quadrants index node

/-- Depths (distance from the given node) of all leaves of a subtree. -/
def leafDepths : Option TreeNode → List ℕ
  | none => []
  | some (.leaf _) => [0]
  | some (.internal q1 q2 q3 q4) =>
      ((leafDepths q1 ++ leafDepths q2 ++ leafDepths q3 ++ leafDepths q4).map
        (· + 1))

/-- The regions owned by the leaves of a subtree, in traversal order. -/
def leafRegions : Option TreeNode → List Region
  | none => []
  | some (.leaf R) => [R]
  | some (.internal q1 q2 q3 q4) =>
      leafRegions q1 ++ leafRegions q2 ++ leafRegions q3 ++ leafRegions q4

/-- Whether (r, c, ch) is a cell that `highlight_leaves_helper` writes
(a border cell of some leaf of the subtree, on channel 0, 1 or 2). -/
def inBorder : Option TreeNode → ℕ → ℕ → ℕ → Bool
  | none, _, _, _ => false
  | some (.leaf R), r, c, ch =>
      decide (R.memP (r, c) ∧ ch < 3 ∧
        (r = R.r0 ∨ c = R.c0 ∨ r = R.r1 - 1 ∨ c = R.c1 - 1))
  | some (.internal q1 q2 q3 q4), r, c, ch =>
      inBorder q1 r c ch || inBorder q2 r c ch ||
        inBorder q3 r c ch || inBorder q4 r c ch

/-- Concrete single-row buffer: pixel (0,0) has all channels 0, every
other pixel has all channels 6. -/
def bufRow : Buf := fun _ c _ => if c = 0 then 0 else 6

/-- Concrete all-zero buffer. -/
def bufZero : Buf := fun _ _ _ => 0

/-- Concrete two-tone buffer: row 0 has all channels 0, every other
row has all channels 8. -/
def bufSplit : Buf := fun r _ _ => if r = 0 then 0 else 8

/-- C3: a region that is neither empty, at the depth limit, nor
homogeneous is split into exactly 4 quadrants, rows bisected first
(the top half receives `⌈rows/2⌉` rows) and then each half bisected
into left/right (the left half receives `⌈cols/2⌉` columns); each
quadrant is built recursively with `max_depth - 1` and the result is
an internal node over the four optional children in the order
(top-left, top-right, bottom-left, bottom-right). -/
theorem construct_splits_into_four_quadrants (C : ℕ) (t : ℚ) (buf : Buf)
    (R : Region) (d : ℤ) (hsz : R.size C ≠ 0) (hd : ¬d ≤ 0)
    (hhom : check_homogeneity C buf R t = false) :
    construct C t buf R d =
      (let p1 := construct C t buf
        ⟨R.r0, R.r0 + (R.rows + 1) / 2, R.c0, R.c0 + (R.cols + 1) / 2⟩ (d - 1)
      let p2 := construct C t p1.2
        ⟨R.r0, R.r0 + (R.rows + 1) / 2, R.c0 + (R.cols + 1) / 2, R.c1⟩ (d - 1)
      let p3 := construct C t p2.2
        ⟨R.r0 + (R.rows + 1) / 2, R.r1, R.c0, R.c0 + (R.cols + 1) / 2⟩ (d - 1)
      let p4 := construct C t p3.2
        ⟨R.r0 + (R.rows + 1) / 2, R.r1, R.c0 + (R.cols + 1) / 2, R.c1⟩ (d - 1)
      (some (.internal p1.1 p2.1 p3.1 p4.1), p4.2)) := by
  rw [construct.eq_def]
  simp only [hsz, hd, hhom, if_false, ite_false, false_or, Bool.false_eq_true,
    if_neg (fun h => hsz h), Region.topLeft, Region.topRight,
    Region.bottomLeft, Region.bottomRight, Region.rowMid, Region.colMid]

/-- Witness for C3 at a concrete input: a 2-by-2 two-tone image with
tolerance 0 and depth budget 5 splits into its four quadrants. -/
theorem construct_splits_into_four_quadrants_witness :
    construct 3 0 bufSplit ⟨0, 2, 0, 2⟩ 5 =
      (let p1 := construct 3 0 bufSplit ⟨0, 0 + (2 + 1) / 2, 0, 0 + (2 + 1) / 2⟩ (5 - 1)
      let p2 := construct 3 0 p1.2 ⟨0, 0 + (2 + 1) / 2, 0 + (2 + 1) / 2, 2⟩ (5 - 1)
      let p3 := construct 3 0 p2.2 ⟨0 + (2 + 1) / 2, 2, 0, 0 + (2 + 1) / 2⟩ (5 - 1)
      let p4 := construct 3 0 p3.2 ⟨0 + (2 + 1) / 2, 2, 0 + (2 + 1) / 2, 2⟩ (5 - 1)
      (some (.internal p1.1 p2.1 p3.1 p4.1), p4.2)) :=
  construct_splits_into_four_quadrants 3 0 bufSplit ⟨0, 2, 0, 2⟩ 5
    (by decide) (by decide)
    (by norm_num [check_homogeneity, stdGt, channelVar, channelMean, channelSum,
      Region.cells, Region.rows, Region.cols, Region.numPixels, bufSplit,
      List.range_succ])

/-- C7: a buffer that is not 3-dimensional, or whose shape has zero
total elements, yields a tree with an empty root (no fault is raised:
the constructor is a total function into a tree value), the buffer is
left untouched by construction, `get_height()` returns 0, and
`highlight_leaves()` leaves any buffer unchanged. -/
theorem empty_or_invalid_buffer_gives_empty_tree (a : NpArray) (d : ℤ)
    (t : ℚ) (buf : Buf) (h : a.shape.length ≠ 3 ∨ a.shape.prod = 0) :
    (quadTreeInit a d t).1.root = none ∧ (quadTreeInit a d t).2 = a.px ∧
    (quadTreeInit a d t).1.get_height = 0 ∧
    (quadTreeInit a d t).1.highlight_leaves buf = buf := by
  have hgh : (QuadTree.mk none).get_height = 0 := by
    simp [QuadTree.get_height, get_height_helper]
  obtain ⟨shape, px⟩ := a
  match shape with
  | [] | [_] | [_, _] | _ :: _ :: _ :: _ :: _ =>
      exact ⟨rfl, rfl, hgh, rfl⟩
  | [H, W, C] =>
      simp only [List.length_cons, List.length_nil, List.prod_cons,
        List.prod_nil, mul_one, ne_eq, not_true_eq_false, false_or] at h
      have hsz : Region.size ⟨0, H, 0, W⟩ C = 0 := by
        simp only [Region.size, Region.rows, Region.cols, Nat.sub_zero,
          Nat.mul_assoc]
        exact h
      have hc : construct C t px ⟨0, H, 0, W⟩ d = (none, px) := by
        rw [construct.eq_def, if_pos hsz]
      simp [quadTreeInit, hc, QuadTree.get_height, QuadTree.highlight_leaves,
        get_height_helper]

/-- Witness for C7 at a concrete input: a buffer with 0 rows. -/
theorem empty_or_invalid_buffer_gives_empty_tree_witness :
    (quadTreeInit ⟨[0, 2, 3], bufSplit⟩ 5 0).1.root = none ∧
    (quadTreeInit ⟨[0, 2, 3], bufSplit⟩ 5 0).2 = bufSplit ∧
    (quadTreeInit ⟨[0, 2, 3], bufSplit⟩ 5 0).1.get_height = 0 ∧
    (quadTreeInit ⟨[0, 2, 3], bufSplit⟩ 5 0).1.highlight_leaves bufZero = bufZero :=
  empty_or_invalid_buffer_gives_empty_tree ⟨[0, 2, 3], bufSplit⟩ 5 0 bufZero
    (by decide)

/-- C10: `get_quadrant(i)` and `set_quadrant(i, node)` on an internal
node (a 4-slot quadrant list) succeed exactly for integer indices in
-4..3; indices 0..3 address slot `i`, indices -4..-1 silently address
slot `4 + i` (so -1 is the bottom-right slot), and anything outside
-4..3 raises IndexError. -/
theorem quadrant_access_index_semantics (q : List (Option TreeNode))
    (hq : q.length = 4) (i : ℤ) (n : Option TreeNode) :
    ((∃ v, get_quadrant q i = .ok v) ↔ (-4 ≤ i ∧ i < 4)) ∧
    ((∃ l, set_quadrant q i n = .ok l) ↔ (-4 ≤ i ∧ i < 4)) ∧
    (∀ h0 : 0 ≤ i, ∀ h4 : i < 4,
      get_quadrant q i = .ok (q.get ⟨i.toNat, by omega⟩) ∧
      set_quadrant q i n = .ok (q.set i.toNat n)) ∧
    (∀ hn : i < 0, ∀ h4 : -4 ≤ i,
      get_quadrant q i = .ok (q.get ⟨(i + 4).toNat, by omega⟩) ∧
      set_quadrant q i n = .ok (q.set (i + 4).toNat n)) := by
  have hadj : pyAdjust q.length i = if i < 0 then i + 4 else i := by
    simp only [pyAdjust, hq]
    norm_num
  refine ⟨?_, ?_, ?_, ?_⟩
  · simp only [get_quadrant, pyListGet, hadj, hq]
    split_ifs with hcond <;> simp_all <;> omega
  · simp only [set_quadrant, pyListSet, hadj, hq]
    split_ifs with hcond <;> simp_all <;> omega
  · intro h0 h4
    have hadj2 : pyAdjust q.length i = i := by rw [hadj, if_neg (by omega)]
    constructor
    · simp only [get_quadrant, pyListGet, hadj2]
      rw [dif_pos (by omega)]
    · simp only [set_quadrant, pyListSet, hadj2]
      rw [if_pos (by omega)]
  · intro hn h4
    have hadj2 : pyAdjust q.length i = i + 4 := by rw [hadj, if_pos hn]
    constructor
    · simp only [get_quadrant, pyListGet, hadj2]
      rw [dif_pos (by omega)]
    · simp only [set_quadrant, pyListSet, hadj2]
      rw [if_pos (by omega)]

/-- Witness for C10 at a concrete input: a 4-slot internal node
accessed at index -1. -/
theorem quadrant_access_index_semantics_witness :
    ((∃ v, get_quadrant [none, none, none, none] (-1) = .ok v) ↔
      (-4 ≤ (-1 : ℤ) ∧ (-1 : ℤ) < 4)) ∧
    ((∃ l, set_quadrant [none, none, none, none] (-1) none = .ok l) ↔
      (-4 ≤ (-1 : ℤ) ∧ (-1 : ℤ) < 4)) ∧
    (∀ h0 : (0 : ℤ) ≤ -1, ∀ h4 : (-1 : ℤ) < 4,
      get_quadrant [none, none, none, none] (-1) =
        .ok (([none, none, none, none] : List (Option TreeNode)).get
          ⟨(-1 : ℤ).toNat, by decide⟩) ∧
      set_quadrant [none, none, none, none] (-1) none =
        .ok (([none, none, none, none] : List (Option TreeNode)).set
          (-1 : ℤ).toNat none)) ∧
    (∀ hn : (-1 : ℤ) < 0, ∀ h4 : -4 ≤ (-1 : ℤ),
      get_quadrant [none, none, none, none] (-1) =
        .ok (([none, none, none, none] : List (Option TreeNode)).get
          ⟨((-1 : ℤ) + 4).toNat, by decide⟩) ∧
      set_quadrant [none, none, none, none] (-1) none =
        .ok (([none, none, none, none] : List (Option TreeNode)).set
          ((-1 : ℤ) + 4).toNat none)) :=
  quadrant_access_index_semantics [none, none, none, none] rfl (-1) none

/-- C1 (failing input): on the 1-by-2 buffer `bufRow` with
`max_depth = 0`, the root is a single leaf over a region of two pixels
(not exactly one), yet the buffer is left completely unchanged: the
guard `shape[0] != 1 and shape[1] != 1` in `LeafNode.__init__` skips
averaging for every single-row (or single-column) region, so pixel
(0, 1) keeps value 6 instead of the region mean 3. -/
theorem single_row_leaf_skips_averaging :
    (quadTreeInit ⟨[1, 2, 3], bufRow⟩ 0 0).1.root = some (.leaf ⟨0, 1, 0, 2⟩) ∧
    (quadTreeInit ⟨[1, 2, 3], bufRow⟩ 0 0).2 = bufRow ∧
    channelMean bufRow ⟨0, 1, 0, 2⟩ 0 = 3 ∧
    bufRow 0 1 0 = 6 := by
  have hc : construct 3 0 bufRow ⟨0, 1, 0, 2⟩ 0 =
      (some (.leaf ⟨0, 1, 0, 2⟩), bufRow) := by
    rw [construct.eq_def]
    norm_num [Region.size, Region.rows, Region.cols, leafNodeInit]
  refine ⟨?_, ?_, ?_, ?_⟩
  · simp [quadTreeInit, hc]
  · simp [quadTreeInit, hc]
  · norm_num [channelMean, channelSum, Region.cells, Region.rows, Region.cols,
      Region.numPixels, bufRow, List.range_succ]
  · norm_num [bufRow]

/-- C8 (counterexample): a negative `max_std_dev` is not rejected
before construction; on the 1-by-1 buffer `bufZero` with tolerance -1
and depth budget 1 the constructor runs to completion and even splits
(the per-channel standard deviation 0 exceeds -1), producing an
internal root — no input-validation fault exists in the code. -/
theorem negative_tolerance_not_rejected :
    (quadTreeInit ⟨[1, 1, 3], bufZero⟩ 1 (-1)).1.root =
      some (.internal (some (.leaf ⟨0, 1, 0, 1⟩)) none none none) ∧
    (quadTreeInit ⟨[1, 1, 3], bufZero⟩ 1 (-1)).2 = bufZero := by
  have hhom : check_homogeneity 3 bufZero ⟨0, 1, 0, 1⟩ (-1) = false := by
    norm_num [check_homogeneity, stdGt, List.range_succ]
  have hleaf : construct 3 (-1) bufZero ⟨0, 1, 0, 1⟩ 0 =
      (some (.leaf ⟨0, 1, 0, 1⟩), bufZero) := by
    rw [construct.eq_def]
    norm_num [Region.size, Region.rows, Region.cols, leafNodeInit]
  have hmt : ∀ R : Region, R.size 3 = 0 →
      construct 3 (-1) bufZero R 0 = (none, bufZero) := by
    intro R hR
    rw [construct.eq_def, if_pos hR]
  have hc : construct 3 (-1) bufZero ⟨0, 1, 0, 1⟩ 1 =
      (some (.internal (some (.leaf ⟨0, 1, 0, 1⟩)) none none none), bufZero) := by
    rw [construct.eq_def]
    rw [if_neg (by norm_num [Region.size, Region.rows, Region.cols])]
    rw [if_neg (by simp [hhom])]
    simp only [Region.topLeft, Region.topRight, Region.bottomLeft,
      Region.bottomRight, Region.rowMid, Region.colMid, Region.rows,
      Region.cols]
    norm_num
    rw [hleaf, hmt ⟨0, 1, 1, 1⟩ (by norm_num [Region.size, Region.rows, Region.cols]),
      hmt ⟨1, 1, 0, 1⟩ (by norm_num [Region.size, Region.rows, Region.cols]),
      hmt ⟨1, 1, 1, 1⟩ (by norm_num [Region.size, Region.rows, Region.cols])]
    simp
  constructor
  · simp [quadTreeInit, hc]
  · simp [quadTreeInit, hc]

/-- C8 (amended): the code performs no validation of `max_std_dev`; a
negative tolerance is accepted and construction proceeds, with no
region holding at least one pixel and one channel ever judged
homogeneous (every per-channel standard deviation is ≥ 0 > t); a
negative (or zero) `max_depth` forces an immediate single leaf at the
root of any non-empty region. -/
theorem negative_parameter_behaviour (C : ℕ) (t : ℚ) (buf : Buf)
    (R : Region) (d : ℤ) (ht : t < 0) (hC : 0 < C)
    (hpx : 0 < R.numPixels) (hd : d ≤ 0) :
    check_homogeneity C buf R t = false ∧
    (construct C t buf R d).1 = some (.leaf R) := by
  constructor
  · simp only [check_homogeneity, List.all_eq_false]
    exact ⟨0, List.mem_range.mpr hC, by simp [stdGt, ht]⟩
  · have hsz : R.size C ≠ 0 := by
      simpa [Region.size, Region.numPixels] using (Nat.mul_pos hpx hC).ne'
    rw [construct.eq_def, if_neg hsz, if_pos (Or.inl hd)]

/-- Witness for the amended C8 at a concrete input: tolerance -1 and
depth -2 on a 1-by-1 all-zero image. -/
theorem negative_parameter_behaviour_witness :
    check_homogeneity 3 bufZero ⟨0, 1, 0, 1⟩ (-1) = false ∧
    (construct 3 (-1) bufZero ⟨0, 1, 0, 1⟩ (-2)).1 =
      some (.leaf ⟨0, 1, 0, 1⟩) :=
  negative_parameter_behaviour 3 (-1) bufZero ⟨0, 1, 0, 1⟩ (-2)
    (by norm_num) (by norm_num)
    (by norm_num [Region.numPixels, Region.rows, Region.cols]) (by norm_num)

/-- C2: for a non-empty region the homogeneity test returns true iff
for each colour channel, taken independently, the standard deviation
(the real square root of the population variance) of that channel over
the region's pixels is ≤ `max_std_dev`; moreover construction places a
leaf over such a region (depth budget permitting) iff that same
condition holds of the original, not-yet-averaged pixel values of the
input buffer. -/
theorem homogeneity_iff_all_std_le (C : ℕ) (t : ℚ) (buf : Buf)
    (R : Region) (d : ℤ) (hsz : R.size C ≠ 0) (hd : 0 < d) :
    (check_homogeneity C buf R t = true ↔
      ∀ ch < C, Real.sqrt (channelVar buf R ch) ≤ (t : ℝ)) ∧
    ((construct C t buf R d).1 = some (.leaf R) ↔
      ∀ ch < C, Real.sqrt (channelVar buf R ch) ≤ (t : ℝ)) := by
  have key : ∀ ch : ℕ, ((!stdGt (channelVar buf R ch) t) = true ↔
      Real.sqrt (channelVar buf R ch) ≤ (t : ℝ)) := by
    intro ch
    rw [Real.sqrt_le_iff]
    simp only [stdGt, Bool.not_eq_true', decide_eq_false_iff_not, not_or,
      not_lt]
    constructor
    · rintro ⟨h1, h2⟩
      exact ⟨by exact_mod_cast h1, by exact_mod_cast h2⟩
    · rintro ⟨h1, h2⟩
      exact ⟨by exact_mod_cast h1, by exact_mod_cast h2⟩
  have hiff : check_homogeneity C buf R t = true ↔
      ∀ ch < C, Real.sqrt (channelVar buf R ch) ≤ (t : ℝ) := by
    simp only [check_homogeneity, List.all_eq_true, List.mem_range]
    exact forall_congr' fun ch => imp_congr_right fun _ => key ch
  refine ⟨hiff, ?_⟩
  have hcon : (construct C t buf R d).1 = some (.leaf R) ↔
      check_homogeneity C buf R t = true := by
    rw [construct.eq_def, if_neg hsz]
    by_cases hch : check_homogeneity C buf R t = true
    · rw [if_pos (Or.inr hch)]
      simp [hch]
    · rw [if_neg (not_or.mpr ⟨by omega, hch⟩)]
      simp [hch]
  exact hcon.trans hiff

/-- Witness for C2 at a concrete input: the two-tone 2-by-2 image has
per-channel standard deviation 4, so tolerance 4 is homogeneous. -/
theorem homogeneity_iff_all_std_le_witness :
    (check_homogeneity 3 bufSplit ⟨0, 2, 0, 2⟩ 4 = true ↔
      ∀ ch < 3, Real.sqrt (channelVar bufSplit ⟨0, 2, 0, 2⟩ ch) ≤
        ((4 : ℚ) : ℝ)) ∧
    ((construct 3 4 bufSplit ⟨0, 2, 0, 2⟩ 7).1 = some (.leaf ⟨0, 2, 0, 2⟩) ↔
      ∀ ch < 3, Real.sqrt (channelVar bufSplit ⟨0, 2, 0, 2⟩ ch) ≤
        ((4 : ℚ) : ℝ)) :=
  homogeneity_iff_all_std_le 3 4 bufSplit ⟨0, 2, 0, 2⟩ 7 (by decide) (by decide)

/-- The net effect of `highlight_leaves_helper` on the buffer: a cell
is zeroed exactly when it is a border cell (channel < 3) of some leaf
of the subtree, and every other cell is untouched. -/
lemma highlight_helper_eq_inBorder (n : Option TreeNode) (buf : Buf) :
    highlight_leaves_helper n buf = fun r c ch =>
      if inBorder n r c ch = true then 0 else buf r c ch := by
  induction n, buf using highlight_leaves_helper.induct with
  | case1 buf =>
      funext r c ch
      simp [highlight_leaves_helper, inBorder]
  | case2 R buf =>
      funext r c ch
      simp [highlight_leaves_helper, inBorder, highlight_border]
  | case3 q1 q2 q3 q4 buf ih1 ih2 ih3 ih4 =>
      funext r c ch
      simp only [highlight_leaves_helper]
      rw [ih4]
      simp only []
      rw [ih3]
      simp only []
      rw [ih2]
      simp only []
      rw [ih1]
      simp only [inBorder]
      rcases h1 : inBorder q1 r c ch <;> rcases h2 : inBorder q2 r c ch <;>
        rcases h3 : inBorder q3 r c ch <;> rcases h4 : inBorder q4 r c ch <;>
        simp [h1, h2, h3, h4]

/-- C9: `highlight_leaves()` is idempotent — running it twice in
succession yields a buffer identical to running it once, because the
cells it writes depend only on the tree's leaf regions and are all set
to the constant black value 0. -/
theorem highlight_leaves_idempotent (q : QuadTree) (buf : Buf) :
    q.highlight_leaves (q.highlight_leaves buf) = q.highlight_leaves buf := by
  obtain ⟨root⟩ := q
  match root with
  | none => rfl
  | some r =>
      show highlight_leaves_helper (some r)
          (highlight_leaves_helper (some r) buf) =
        highlight_leaves_helper (some r) buf
      rw [highlight_helper_eq_inBorder (some r)
        (highlight_leaves_helper (some r) buf),
        highlight_helper_eq_inBorder (some r) buf]
      funext x y z
      by_cases h : inBorder (some r) x y z = true <;> simp [h]

/-- Every leaf of the subtree built with depth budget `d >= 0` lies at
depth at most `d`; strong induction on the depth budget. -/
lemma construct_leafDepths_le (C : ℕ) (t : ℚ) :
    ∀ (n : ℕ) (buf : Buf) (R : Region) (d : ℤ), d.toNat ≤ n → 0 ≤ d →
      ∀ k ∈ leafDepths (construct C t buf R d).1, (k : ℤ) ≤ d := by
  intro n
  induction n with
  | zero =>
      intro buf R d hn hd k hk
      rw [construct.eq_def] at hk
      by_cases hsz : R.size C = 0
      · rw [if_pos hsz] at hk
        simp [leafDepths] at hk
      · rw [if_neg hsz, if_pos (Or.inl (by omega))] at hk
        simp [leafDepths] at hk
        omega
  | succ n ih =>
      intro buf R d hn hd k hk
      rw [construct.eq_def] at hk
      by_cases hsz : R.size C = 0
      · rw [if_pos hsz] at hk
        simp [leafDepths] at hk
      · rw [if_neg hsz] at hk
        by_cases hlf : d ≤ 0 ∨ check_homogeneity C buf R t = true
        · rw [if_pos hlf] at hk
          simp [leafDepths] at hk
          omega
        · rw [if_neg hlf] at hk
          simp only [leafDepths, List.mem_map, List.mem_append] at hk
          obtain ⟨k1, hk1, rfl⟩ := hk
          have hd1 : (0 : ℤ) ≤ d - 1 := by
            rcases not_or.mp hlf with ⟨h, -⟩
            omega
          have hn1 : (d - 1).toNat ≤ n := by omega
          rcases hk1 with ((h | h) | h) | h
          · have := ih _ _ _ hn1 hd1 k1 h
            push_cast
            omega
          · have := ih _ _ _ hn1 hd1 k1 h
            push_cast
            omega
          · have := ih _ _ _ hn1 hd1 k1 h
            push_cast
            omega
          · have := ih _ _ _ hn1 hd1 k1 h
            push_cast
            omega

/-- C4: in the tree produced by construction from any buffer, with a
non-negative depth bound (the spec's input domain for `max_depth`) and
any tolerance, no leaf node lies at a depth greater than `max_depth`
from the root. -/
theorem no_leaf_deeper_than_max_depth (a : NpArray) (d : ℤ) (t : ℚ)
    (hd : 0 ≤ d) : ∀ k ∈ leafDepths (quadTreeInit a d t).1.root, (k : ℤ) ≤ d := by
  obtain ⟨shape, px⟩ := a
  match shape with
  | [] | [_] | [_, _] | _ :: _ :: _ :: _ :: _ =>
      intro k hk
      simp [quadTreeInit, leafDepths] at hk
  | [H, W, C] =>
      exact fun k hk =>
        construct_leafDepths_le C t d.toNat px ⟨0, H, 0, W⟩ d le_rfl hd k hk


/-- Witness for C4 at a concrete input: the 1-by-2 image at depth
bound 0 has a leaf at depth 0, within the bound. -/
theorem no_leaf_deeper_than_max_depth_witness :
    0 ∈ leafDepths (quadTreeInit ⟨[1, 2, 3], bufRow⟩ 0 0).1.root ∧
    ((0 : ℕ) : ℤ) ≤ 0 := by
  have hc : construct 3 0 bufRow ⟨0, 1, 0, 2⟩ 0 =
      (some (.leaf ⟨0, 1, 0, 2⟩), bufRow) := by
    rw [construct.eq_def]
    norm_num [Region.size, Region.rows, Region.cols, leafNodeInit]
  have hmem : 0 ∈ leafDepths (quadTreeInit ⟨[1, 2, 3], bufRow⟩ 0 0).1.root := by
    simp [quadTreeInit, hc, leafDepths]
  exact ⟨hmem,
    no_leaf_deeper_than_max_depth ⟨[1, 2, 3], bufRow⟩ 0 0 (by decide) 0 hmem⟩

/-- A pixel position lies in a region iff it lies in exactly the split
geometry's corresponding quadrant; here: in at least one of the four. -/
lemma mem_quadrant_iff (R : Region) (p : ℕ × ℕ) :
    R.memP p ↔ (R.topLeft.memP p ∨ R.topRight.memP p ∨
      R.bottomLeft.memP p ∨ R.bottomRight.memP p) := by
  simp only [Region.memP, Region.topLeft, Region.topRight, Region.bottomLeft,
    Region.bottomRight, Region.rowMid, Region.colMid, Region.rows, Region.cols]
  omega

/-- The four quadrants of the split are pairwise disjoint. -/
lemma quadrant_disjoints (R : Region) :
    RegionDisjoint R.topLeft R.topRight ∧ RegionDisjoint R.topLeft R.bottomLeft ∧
    RegionDisjoint R.topLeft R.bottomRight ∧
    RegionDisjoint R.topRight R.bottomLeft ∧
    RegionDisjoint R.topRight R.bottomRight ∧
    RegionDisjoint R.bottomLeft R.bottomRight := by
  refine ⟨?_, ?_, ?_, ?_, ?_, ?_⟩ <;> intro p hp <;>
    simp only [Region.memP, Region.topLeft, Region.topRight, Region.bottomLeft,
      Region.bottomRight, Region.rowMid, Region.colMid, Region.rows,
      Region.cols] at hp <;>
    omega

/-- Regions drawn from covers of two disjoint parent regions are
disjoint. -/
lemma cross_disjoint {L1 L2 : List Region} {S1 S2 : Region}
    (c1 : ∀ p : ℕ × ℕ, (∃ Q ∈ L1, Q.memP p) ↔ S1.memP p)
    (c2 : ∀ p : ℕ × ℕ, (∃ Q ∈ L2, Q.memP p) ↔ S2.memP p)
    (hdisj : RegionDisjoint S1 S2) :
    ∀ Q1 ∈ L1, ∀ Q2 ∈ L2, RegionDisjoint Q1 Q2 := by
  intro Q1 h1 Q2 h2 p hp
  exact hdisj p ⟨(c1 p).mp ⟨Q1, h1, hp.1⟩, (c2 p).mp ⟨Q2, h2, hp.2⟩⟩

/-- The leaf regions of any constructed subtree are pairwise disjoint
and cover the input region exactly; strong induction on the depth
budget. -/
lemma construct_partition (C : ℕ) (t : ℚ) (hC : 0 < C) :
    ∀ (n : ℕ) (buf : Buf) (R : Region) (d : ℤ), d.toNat ≤ n →
      List.Pairwise RegionDisjoint (leafRegions (construct C t buf R d).1) ∧
      ∀ p : ℕ × ℕ,
        (∃ Q ∈ leafRegions (construct C t buf R d).1, Q.memP p) ↔ R.memP p := by
  have hbase0 : ∀ (buf : Buf) (R : Region) (d : ℤ), R.size C = 0 →
      List.Pairwise RegionDisjoint (leafRegions (construct C t buf R d).1) ∧
      ∀ p : ℕ × ℕ,
        (∃ Q ∈ leafRegions (construct C t buf R d).1, Q.memP p) ↔ R.memP p := by
    intro buf R d hsz
    rw [construct.eq_def, if_pos hsz]
    refine ⟨by simp [leafRegions], fun p => ?_⟩
    have hnp : ¬R.memP p := by
      simp only [Region.size, Region.rows, Region.cols] at hsz
      simp only [Region.memP]
      rcases Nat.mul_eq_zero.mp hsz with h | h
      · rcases Nat.mul_eq_zero.mp h with h2 | h2 <;> omega
      · omega
    simp [leafRegions, hnp]
  have hbase1 : ∀ (buf : Buf) (R : Region) (d : ℤ), R.size C ≠ 0 →
      (d ≤ 0 ∨ check_homogeneity C buf R t = true) →
      List.Pairwise RegionDisjoint (leafRegions (construct C t buf R d).1) ∧
      ∀ p : ℕ × ℕ,
        (∃ Q ∈ leafRegions (construct C t buf R d).1, Q.memP p) ↔ R.memP p := by
    intro buf R d hsz hlf
    rw [construct.eq_def, if_neg hsz, if_pos hlf]
    refine ⟨by simp [leafRegions], fun p => ?_⟩
    simp [leafRegions]
  intro n
  induction n with
  | zero =>
      intro buf R d hn
      by_cases hsz : R.size C = 0
      · exact hbase0 buf R d hsz
      · exact hbase1 buf R d hsz (Or.inl (by omega))
  | succ n ih =>
      intro buf R d hn
      by_cases hsz : R.size C = 0
      · exact hbase0 buf R d hsz
      · by_cases hlf : d ≤ 0 ∨ check_homogeneity C buf R t = true
        · exact hbase1 buf R d hsz hlf
        · have hn1 : (d - 1).toNat ≤ n := by omega
          obtain ⟨P1, cov1⟩ := ih buf R.topLeft (d - 1) hn1
          obtain ⟨P2, cov2⟩ :=
            ih (construct C t buf R.topLeft (d - 1)).2 R.topRight (d - 1) hn1
          obtain ⟨P3, cov3⟩ :=
            ih (construct C t (construct C t buf R.topLeft (d - 1)).2 R.topRight
              (d - 1)).2 R.bottomLeft (d - 1) hn1
          obtain ⟨P4, cov4⟩ :=
            ih (construct C t (construct C t (construct C t buf R.topLeft
              (d - 1)).2 R.topRight (d - 1)).2 R.bottomLeft (d - 1)).2
              R.bottomRight (d - 1) hn1
          obtain ⟨d12, d13, d14, d23, d24, d34⟩ := quadrant_disjoints R
          rw [construct.eq_def, if_neg hsz, if_neg hlf]
          simp only [leafRegions]
          constructor
          · rw [List.pairwise_append]
            refine ⟨?_, P4, ?_⟩
            · rw [List.pairwise_append]
              refine ⟨?_, P3, ?_⟩
              · rw [List.pairwise_append]
                exact ⟨P1, P2, cross_disjoint cov1 cov2 d12⟩
              · intro a ha b hb
                rcases List.mem_append.mp ha with ha | ha
                · exact cross_disjoint cov1 cov3 d13 a ha b hb
                · exact cross_disjoint cov2 cov3 d23 a ha b hb
            · intro a ha b hb
              rcases List.mem_append.mp ha with ha | ha
              · rcases List.mem_append.mp ha with ha | ha
                · exact cross_disjoint cov1 cov4 d14 a ha b hb
                · exact cross_disjoint cov2 cov4 d24 a ha b hb
              · exact cross_disjoint cov3 cov4 d34 a ha b hb
          · intro p
            rw [mem_quadrant_iff R p]
            constructor
            · rintro ⟨Q, hQ, hp⟩
              rcases List.mem_append.mp hQ with hQ | hQ
              · rcases List.mem_append.mp hQ with hQ | hQ
                · rcases List.mem_append.mp hQ with hQ | hQ
                  · exact Or.inl ((cov1 p).mp ⟨Q, hQ, hp⟩)
                  · exact Or.inr (Or.inl ((cov2 p).mp ⟨Q, hQ, hp⟩))
                · exact Or.inr (Or.inr (Or.inl ((cov3 p).mp ⟨Q, hQ, hp⟩)))
              · exact Or.inr (Or.inr (Or.inr ((cov4 p).mp ⟨Q, hQ, hp⟩)))
            · rintro (h | h | h | h)
              · obtain ⟨Q, hQ, hp⟩ := (cov1 p).mpr h
                exact ⟨Q, List.mem_append_left _ (List.mem_append_left _
                  (List.mem_append_left _ hQ)), hp⟩
              · obtain ⟨Q, hQ, hp⟩ := (cov2 p).mpr h
                exact ⟨Q, List.mem_append_left _ (List.mem_append_left _
                  (List.mem_append_right _ hQ)), hp⟩
              · obtain ⟨Q, hQ, hp⟩ := (cov3 p).mpr h
                exact ⟨Q, List.mem_append_left _ (List.mem_append_right _ hQ), hp⟩
              · obtain ⟨Q, hQ, hp⟩ := (cov4 p).mpr h
                exact ⟨Q, List.mem_append_right _ hQ, hp⟩

/-- C5: in the tree produced by one construction over a 3-dimensional
buffer (with at least one channel), the regions of any two distinct
leaves never overlap, and the union of all leaf regions covers the
whole buffer exactly — any empty quadrant contributes no region. -/
theorem leaf_regions_partition_buffer (a : NpArray) (d : ℤ) (t : ℚ)
    (H W C : ℕ) (hshape : a.shape = [H, W, C]) (hC : 0 < C) :
    List.Pairwise RegionDisjoint (leafRegions (quadTreeInit a d t).1.root) ∧
    ∀ p : ℕ × ℕ,
      (∃ Q ∈ leafRegions (quadTreeInit a d t).1.root, Q.memP p) ↔
        (Region.mk 0 H 0 W).memP p := by
  obtain ⟨shape, px⟩ := a
  simp only at hshape
  subst hshape
  exact construct_partition C t hC d.toNat px ⟨0, H, 0, W⟩ d le_rfl


/-- Witness for C5 at a concrete input: the two-tone 2-by-2 image. -/
theorem leaf_regions_partition_buffer_witness :
    List.Pairwise RegionDisjoint
      (leafRegions (quadTreeInit ⟨[2, 2, 3], bufSplit⟩ 5 0).1.root) ∧
    ∀ p : ℕ × ℕ,
      (∃ Q ∈ leafRegions (quadTreeInit ⟨[2, 2, 3], bufSplit⟩ 5 0).1.root,
        Q.memP p) ↔ (Region.mk 0 2 0 2).memP p :=
  leaf_regions_partition_buffer ⟨[2, 2, 3], bufSplit⟩ 5 0 2 2 3 rfl
    (by decide)

/-- A single-pixel region has per-channel variance 0. -/
lemma channelVar_single (buf : Buf) (R : Region) (h1 : R.rows = 1)
    (h2 : R.cols = 1) (ch : ℕ) : channelVar buf R ch = 0 := by
  have hc : R.cells = [(R.r0, R.c0)] := by
    simp [Region.cells, h1, h2, List.range_succ, List.range_zero]
  simp [channelVar, channelMean, channelSum, hc, Region.numPixels, h1, h2]

/-- With a non-negative tolerance, a single-pixel region always passes
the homogeneity test. -/
lemma single_pixel_homogeneous (C : ℕ) (t : ℚ) (ht : 0 ≤ t) (buf : Buf)
    (R : Region) (h1 : R.rows = 1) (h2 : R.cols = 1) :
    check_homogeneity C buf R t = true := by
  simp only [check_homogeneity, List.all_eq_true, List.mem_range]
  intro ch _
  simp [stdGt, channelVar_single buf R h1 h2 ch, not_or, not_lt, ht,
    sq_nonneg t]

/-- A region with at least two pixels has strictly fewer pixels in
each of its four quadrants. -/
lemma quadrant_pixels_lt (R : Region) (hp : 2 ≤ R.numPixels) :
    R.topLeft.numPixels < R.numPixels ∧ R.topRight.numPixels < R.numPixels ∧
    R.bottomLeft.numPixels < R.numPixels ∧
    R.bottomRight.numPixels < R.numPixels := by
  have key : ∀ ra ca, ra ≤ (R.rows + 1) / 2 → ca ≤ (R.cols + 1) / 2 →
      ra * ca < R.rows * R.cols := by
    intro ra ca hra hca
    have hr1 : 1 ≤ R.rows := by
      by_contra h
      have : R.rows = 0 := by omega
      simp [Region.numPixels, this] at hp
    have hc1 : 1 ≤ R.cols := by
      by_contra h
      have : R.cols = 0 := by omega
      simp [Region.numPixels, this] at hp
    have hrc : 2 ≤ R.rows * R.cols := hp
    have h1 : 2 * ra ≤ R.rows + 1 := by omega
    have h2 : 2 * ca ≤ R.cols + 1 := by omega
    have hm : (2 * ra) * (2 * ca) ≤ (R.rows + 1) * (R.cols + 1) :=
      Nat.mul_le_mul h1 h2
    zify at *
    nlinarith [mul_nonneg (by linarith : (0 : ℤ) ≤ (R.rows : ℤ) - 1)
      (by linarith : (0 : ℤ) ≤ (R.cols : ℤ) - 1)]
  have eq1 : R.topLeft.numPixels = ((R.rows + 1) / 2) * ((R.cols + 1) / 2) := by
    simp only [Region.topLeft, Region.numPixels, Region.rows, Region.cols,
      Region.rowMid, Region.colMid]
    congr 1 <;> omega
  have eq2 : R.topRight.numPixels =
      ((R.rows + 1) / 2) * (R.cols - (R.cols + 1) / 2) := by
    simp only [Region.topRight, Region.numPixels, Region.rows, Region.cols,
      Region.rowMid, Region.colMid]
    congr 1 <;> omega
  have eq3 : R.bottomLeft.numPixels =
      (R.rows - (R.rows + 1) / 2) * ((R.cols + 1) / 2) := by
    simp only [Region.bottomLeft, Region.numPixels, Region.rows, Region.cols,
      Region.rowMid, Region.colMid]
    congr 1 <;> omega
  have eq4 : R.bottomRight.numPixels =
      (R.rows - (R.rows + 1) / 2) * (R.cols - (R.cols + 1) / 2) := by
    simp only [Region.bottomRight, Region.numPixels, Region.rows, Region.cols,
      Region.rowMid, Region.colMid]
    congr 1 <;> omega
  refine ⟨?_, ?_, ?_, ?_⟩
  · rw [eq1]
    exact key _ _ le_rfl le_rfl
  · rw [eq2]
    exact key _ _ le_rfl (by omega)
  · rw [eq3]
    exact key _ _ (by omega) le_rfl
  · rw [eq4]
    exact key _ _ (by omega) (by omega)

/-- Unfolding of the recursive (split) case of `construct`. -/
lemma construct_recursive_case (C : ℕ) (t : ℚ) (buf : Buf) (R : Region)
    (d : ℤ) (hsz : R.size C ≠ 0) (hd : ¬d ≤ 0)
    (hhom : check_homogeneity C buf R t = false) :
    construct C t buf R d =
      (let p1 := construct C t buf R.topLeft (d - 1)
      let p2 := construct C t p1.2 R.topRight (d - 1)
      let p3 := construct C t p2.2 R.bottomLeft (d - 1)
      let p4 := construct C t p3.2 R.bottomRight (d - 1)
      (some (.internal p1.1 p2.1 p3.1 p4.1), p4.2)) := by
  rw [construct.eq_def,
    if_neg hsz, if_neg (not_or.mpr ⟨hd, fun h => by rw [h] at hhom; cases hhom⟩)]

/-- With a non-negative tolerance, once the depth budget reaches the
region's pixel count the construction no longer depends on it: the
recursion bottoms out on single pixels (always homogeneous) before the
budget can run out.  Strong induction on the pixel count. -/
lemma construct_depth_stable (C : ℕ) (t : ℚ) (ht : 0 ≤ t) :
    ∀ (n : ℕ) (buf : Buf) (R : Region) (d e : ℤ), R.numPixels ≤ n →
      (R.numPixels : ℤ) ≤ d → (R.numPixels : ℤ) ≤ e →
      construct C t buf R d = construct C t buf R e := by
  intro n
  induction n with
  | zero =>
      intro buf R d e hn hd he
      have hsz : R.size C = 0 := by
        have : R.numPixels = 0 := by omega
        simp only [Region.size]
        simp only [Region.numPixels] at this
        rw [this, Nat.zero_mul]
      rw [construct.eq_def, if_pos hsz, construct.eq_def, if_pos hsz]
  | succ n ih =>
      intro buf R d e hn hd he
      by_cases hsz : R.size C = 0
      · rw [construct.eq_def, if_pos hsz, construct.eq_def, if_pos hsz]
      · have hpx : 0 < R.numPixels := by
          by_contra h
          have h0 : R.numPixels = 0 := by omega
          apply hsz
          simp only [Region.size]
          simp only [Region.numPixels] at h0
          rw [h0, Nat.zero_mul]
        have hd0 : ¬d ≤ 0 := by omega
        have he0 : ¬e ≤ 0 := by omega
        by_cases hhom : check_homogeneity C buf R t = true
        · rw [construct.eq_def, if_neg hsz, if_pos (Or.inr hhom),
            construct.eq_def, if_neg hsz, if_pos (Or.inr hhom)]
        · have h2 : 2 ≤ R.numPixels := by
            rcases Nat.lt_or_ge R.numPixels 2 with h | h
            · have h1 : R.rows * R.cols = 1 := by
                simp only [Region.numPixels] at hpx h ⊢
                omega
              exact absurd (single_pixel_homogeneous C t ht buf R
                (Nat.eq_one_of_mul_eq_one_right h1)
                (Nat.eq_one_of_mul_eq_one_left h1)) hhom
            · exact h
          obtain ⟨l1, l2, l3, l4⟩ := quadrant_pixels_lt R h2
          have hhomf : check_homogeneity C buf R t = false := by
            cases hcb : check_homogeneity C buf R t with
            | false => rfl
            | true => exact absurd hcb hhom
          rw [construct_recursive_case C t buf R d hsz hd0 hhomf,
            construct_recursive_case C t buf R e hsz he0 hhomf]
          simp only []
          have e1 : construct C t buf R.topLeft (d - 1) =
              construct C t buf R.topLeft (e - 1) :=
            ih buf R.topLeft (d - 1) (e - 1) (by omega) (by omega) (by omega)
          rw [e1]
          have e2 : construct C t (construct C t buf R.topLeft (e - 1)).2
                R.topRight (d - 1) =
              construct C t (construct C t buf R.topLeft (e - 1)).2
                R.topRight (e - 1) :=
            ih _ R.topRight (d - 1) (e - 1) (by omega) (by omega) (by omega)
          rw [e2]
          have e3 : construct C t (construct C t (construct C t buf R.topLeft
                (e - 1)).2 R.topRight (e - 1)).2 R.bottomLeft (d - 1) =
              construct C t (construct C t (construct C t buf R.topLeft
                (e - 1)).2 R.topRight (e - 1)).2 R.bottomLeft (e - 1) :=
            ih _ R.bottomLeft (d - 1) (e - 1) (by omega) (by omega) (by omega)
          rw [e3]
          have e4 : construct C t (construct C t (construct C t (construct C t
                buf R.topLeft (e - 1)).2 R.topRight (e - 1)).2 R.bottomLeft
                (e - 1)).2 R.bottomRight (d - 1) =
              construct C t (construct C t (construct C t (construct C t
                buf R.topLeft (e - 1)).2 R.topRight (e - 1)).2 R.bottomLeft
                (e - 1)).2 R.bottomRight (e - 1) :=
            ih _ R.bottomRight (d - 1) (e - 1) (by omega) (by omega) (by omega)
          rw [e4]

/-- C6: construction is a total function of any well-formed input — a
3-dimensional buffer (3 or 4 channels), a finite depth bound and a
non-negative tolerance (`construct` is a terminating Lean function, so
every such input yields a tree) — and for depth bounds at least the
pixel count the result is independent of the bound, so the
unbounded-depth ("no limit") construction is the well-defined common
value of all sufficiently large finite bounds. -/
theorem construction_total_and_depth_stable (a : NpArray) (t : ℚ)
    (H W C : ℕ) (hshape : a.shape = [H, W, C]) (hC : C = 3 ∨ C = 4)
    (ht : 0 ≤ t) (d e : ℤ) (hd : (H * W : ℤ) ≤ d) (he : (H * W : ℤ) ≤ e) :
    quadTreeInit a d t = quadTreeInit a e t := by
  obtain ⟨shape, px⟩ := a
  simp only at hshape
  subst hshape
  have hnum : (Region.mk 0 H 0 W).numPixels = H * W := by
    simp [Region.numPixels, Region.rows, Region.cols]
  have := construct_depth_stable C t ht (H * W) px ⟨0, H, 0, W⟩ d e
    (le_of_eq hnum) (by rw [hnum]; push_cast at hd ⊢; omega)
    (by rw [hnum]; push_cast at he ⊢; omega)
  simp only [quadTreeInit, this]


/-- Witness for C6 at a concrete input: the 1-by-2 image, tolerance 0,
depth bounds 2 and 3. -/
theorem construction_total_and_depth_stable_witness :
    quadTreeInit ⟨[1, 2, 3], bufRow⟩ 2 0 = quadTreeInit ⟨[1, 2, 3], bufRow⟩ 3 0 :=
  construction_total_and_depth_stable ⟨[1, 2, 3], bufRow⟩ 0 1 2 3 rfl
    (Or.inl rfl) (by norm_num) 2 3 (by norm_num) (by norm_num)

end ImageCompression
